import Mathlib

/-!
Formal model of the arithmetic-machine bytecode interpreter (src/main.c).

The interpreter is a stack-based virtual machine: a decode-dispatch loop
(`run`) reads opcode bytes from a code buffer and executes them against a
bounded operand stack of doubles, two scalar registers, and an output
channel written by the PRINT opcode.

Modelling conventions:
* Double values are modelled as rationals.  Every value manipulated by the
  programs considered here is a small dyadic rational on which IEEE-754
  binary64 arithmetic is exact, so the rational model agrees bit-for-bit
  with the C semantics on them.  Encodings of infinities and NaNs
  (biased exponent 2047) lie outside the model; `bitsToDouble` returns
  `none` on them and the machine substitutes 0 (no claim exercises them).
* The C macros `PUSH`, `POP` and `NCODE` perform raw, unchecked array
  indexing.  Accessing `stack` or `code` out of bounds is undefined
  behaviour in C; the model makes every such access an explicit aborting
  outcome `Outcome.ub`.
* `malloc` leaves the 256-slot stack buffer uninitialized, so the machine
  is parametrised by an arbitrary initial stack memory `mem : Nat → ℚ`.
* The 8-byte `DCONST` operand is read by `memcpy` in host byte order; the
  model fixes the little-endian host layout (byte at the lowest program
  counter offset is least significant).
-/

/-- `STACK_SIZE`: maximum number of values on the stack (src/main.c). -/
def STACK_SIZE : Nat := 256

/-- Opcode byte values, from `enum opcodes` in src/main.c. -/
def HALT : Nat := 0x00

/-- Opcode `DCONST_M1`: push -1.0 onto stack. -/
def DCONST_M1 : Nat := 0x0A

/-- Opcode `DCONST_0`: push 0.0 onto stack. -/
def DCONST_0 : Nat := 0x0B

/-- Opcode `DCONST_1`: push 1.0 onto stack. -/
def DCONST_1 : Nat := 0x0C

/-- Opcode `DCONST_2`: push 2.0 onto stack. -/
def DCONST_2 : Nat := 0x0D

/-- Opcode `DCONST`: push next 8 bytes onto stack as double constant. -/
def DCONST : Nat := 0x0F

/-- Opcode `ADD`: add two doubles. -/
def ADD : Nat := 0x60

/-- Opcode `SUB`: subtract two doubles. -/
def SUB : Nat := 0x61

/-- Opcode `MUL`: multiply two doubles. -/
def MUL : Nat := 0x62

/-- Opcode `DIV`: divide two doubles. -/
def DIV : Nat := 0x64

/-- Opcode `NEG`: negate a double. -/
def NEG : Nat := 0x70

/-- Opcode `NOP`: do nothing. -/
def NOP : Nat := 0xF0

/-- Opcode `PRINT`: pops and prints top of stack. -/
def PRINT : Nat := 0xF2

/-- Opcode `ST1`: pops top of stack and stores it in r1. -/
def ST1 : Nat := 0xF4

/-- Opcode `LD1`: load from r1. -/
def LD1 : Nat := 0xF5

/-- Opcode `ST2`: pops top of stack and stores it in r2. -/
def ST2 : Nat := 0xF6

/-- Opcode `LD2`: load from r2. -/
def LD2 : Nat := 0xF7

/-- The virtual machine state, `struct VM` in src/main.c: two registers,
the borrowed code buffer, the malloc'd operand stack (modelled as total
memory over `Nat` indices since the C array is accessed unchecked), the
program counter and the stack pointer (`int sp`, starts at `-1`). -/
structure VM where
  r1 : ℚ
  r2 : ℚ
  code : List Nat
  stack : Nat → ℚ
  pc : Nat
  sp : Int

/-- How one execution of `run` ends.  `success` is `EXIT_SUCCESS` from
`HALT`; `invalidOpcode` and `divByZero` are the two `EXIT_FAILURE` paths
that print `InvalidOpcodeError` resp. `DividingByZeroError`; `ub` marks an
out-of-bounds access to `stack` or `code` (undefined behaviour in the C,
modelled as an aborting outcome).  Note there is no StackUnderflow,
StackOverflow or UnexpectedEndOfCode constructor: the C code contains no
such check. -/
inductive Outcome where
  | success : Outcome
  | invalidOpcode : Nat → Outcome
  | divByZero : Outcome
  | ub : Outcome
  deriving DecidableEq

/-- Result of executing one iteration of the dispatch loop: either the
loop continues with a new state (having possibly printed one value), or
`run` returns with the machine in its final state and an outcome. -/
inductive StepRes where
  | next : VM → Option ℚ → StepRes
  | done : VM → Outcome → StepRes

/-- The C macro `PUSH(vm, v)  (vm->stack[++vm->sp] = v)`: unchecked write
to `stack[sp+1]`; writing outside indices `0..255` is undefined
behaviour. -/
def pushV (vm : VM) (v : ℚ) : StepRes :=
  if 0 ≤ vm.sp + 1 ∧ vm.sp + 1 < (STACK_SIZE : Int) then
    StepRes.next { vm with stack := Function.update vm.stack (vm.sp + 1).toNat v,
                           sp := vm.sp + 1 } none
  else StepRes.done vm Outcome.ub

/-- The C macro `POP(vm)  (vm->stack[vm->sp--])`: unchecked read of
`stack[sp]`; reading outside indices `0..255` is undefined behaviour
(`none`). -/
def popV (vm : VM) : Option (ℚ × VM) :=
  if 0 ≤ vm.sp ∧ vm.sp < (STACK_SIZE : Int) then
    some (vm.stack vm.sp.toNat, { vm with sp := vm.sp - 1 })
  else none

/-- Shared shape of the ADD/MUL/SUB cases of the switch:
`b = POP(vm); a = POP(vm); PUSH(vm, f a b)`. -/
def binOp (vm : VM) (f : ℚ → ℚ → ℚ) : StepRes :=
  match popV vm with
  | none => StepRes.done vm Outcome.ub
  | some (b, vm1) =>
    match popV vm1 with
    | none => StepRes.done vm1 Outcome.ub
    | some (a, vm2) => pushV vm2 (f a b)

/-- Assemble a list of bytes, least significant first, into the natural
number they denote in base 256 (the little-endian word read by
`memcpy`). -/
def leBytesToBits (bs : List Nat) : Nat :=
  bs.foldr (fun b acc => acc * 256 + b) 0

/-- Interpret a 64-bit pattern as an IEEE-754 binary64 value.  Finite
values (normal and subnormal) map to their exact rational value;
`none` for infinities and NaNs (biased exponent 2047). -/
def bitsToDouble (bits : Nat) : Option ℚ :=
  let s : Nat := bits / 2 ^ 63
  let e : Nat := bits / 2 ^ 52 % 2 ^ 11
  let m : Nat := bits % 2 ^ 52
  if e = 2047 then none
  else if e = 0 then some ((if s = 1 then -1 else 1) * (m : ℚ) / 2 ^ 1074)
  else some ((if s = 1 then -1 else 1) * ((2 ^ 52 + m : ℕ) : ℚ) * 2 ^ e / 2 ^ 1075)

/-- The 8 operand bytes of `DCONST`, read from `code[p] .. code[p+7]`. -/
def dconstBytes (code : List Nat) (p : Nat) : List Nat :=
  (List.range 8).map fun i => code.getD (p + i) 0

/-- One iteration of the `for (;;)` loop of `run` in src/main.c:
`NCODE` fetches the byte at `pc` (out of bounds if `pc ≥ len(code)`:
undefined behaviour, modelled as abort with `Outcome.ub`), converts it to
`unsigned char`, increments `pc`, then the switch dispatches on it. -/
def step (vm : VM) : StepRes :=
  match vm.code[vm.pc]? with
  | none => StepRes.done vm Outcome.ub
  | some byte =>
    let op := byte % 256
    let vm1 : VM := { vm with pc := vm.pc + 1 }
    if op = HALT then StepRes.done vm1 Outcome.success
    else if op = NOP then StepRes.next vm1 none
    else if op = DCONST_M1 then pushV vm1 (-1)
    else if op = DCONST_0 then pushV vm1 0
    else if op = DCONST_1 then pushV vm1 1
    else if op = DCONST_2 then pushV vm1 2
    else if op = DCONST then
      if vm1.pc + 8 ≤ vm1.code.length then
        pushV { vm1 with pc := vm1.pc + 8 }
          ((bitsToDouble (leBytesToBits (dconstBytes vm1.code vm1.pc))).getD 0)
      else StepRes.done vm1 Outcome.ub
    else if op = ADD then binOp vm1 (fun a b => a + b)
    else if op = MUL then binOp vm1 (fun a b => a * b)
    else if op = SUB then binOp vm1 (fun a b => a - b)
    else if op = DIV then
      match popV vm1 with
      | none => StepRes.done vm1 Outcome.ub
      | some (b, vm2) =>
        match popV vm2 with
        | none => StepRes.done vm2 Outcome.ub
        | some (a, vm3) =>
          if b = 0 then StepRes.done vm3 Outcome.divByZero
          else pushV vm3 (a / b)
    else if op = NEG then
      match popV vm1 with
      | none => StepRes.done vm1 Outcome.ub
      | some (b, vm2) => pushV vm2 (-b)
    else if op = LD1 then pushV vm1 vm1.r1
    else if op = ST1 then
      match popV vm1 with
      | none => StepRes.done vm1 Outcome.ub
      | some (b, vm2) => StepRes.next { vm2 with r1 := b } none
    else if op = LD2 then pushV vm1 vm1.r2
    else if op = ST2 then
      match popV vm1 with
      | none => StepRes.done vm1 Outcome.ub
      | some (b, vm2) => StepRes.next { vm2 with r2 := b } none
    else if op = PRINT then
      match popV vm1 with
      | none => StepRes.done vm1 Outcome.ub
      | some (a, vm2) => StepRes.next vm2 (some a)
    else StepRes.done vm1 (Outcome.invalidOpcode op)

/-- The dispatch loop `run` of src/main.c, with explicit fuel (the loop
has no bound of its own; `run_total` below shows `len(code) + 1`
iterations always suffice).  Accumulates the values printed by `PRINT`
and returns the final machine state and outcome; `none` means the fuel
ran out before the loop returned. -/
def run : Nat → VM → List ℚ → Option (VM × List ℚ × Outcome)
  | 0, _, _ => none
  | fuel + 1, vm, out =>
    match step vm with
    | StepRes.done vmf o => some (vmf, out, o)
    | StepRes.next vm' p => run fuel vm' (out ++ p.toList)

/-- `newVM` of src/main.c: borrow the code buffer, `pc = 0`, `sp = -1`,
registers zeroed.  `mem` is the arbitrary content of the uninitialized
`malloc`'d stack buffer. -/
def newVM (code : List Nat) (mem : Nat → ℚ) : VM :=
  { r1 := 0, r2 := 0, code := code, stack := mem, pc := 0, sp := -1 }

/-- Execute a program from a fresh machine, as `main` does:
`newVM` followed by `run`, with enough fuel for any program. -/
def runProg (code : List Nat) (mem : Nat → ℚ) : Option (VM × List ℚ × Outcome) :=
  run (code.length + 1) (newVM code mem) []

/-- The observable behaviour of one execution: the printed values in
order, and the outcome.  (The final machine state is freed by `delVM`.) -/
def progOutput (code : List Nat) (mem : Nat → ℚ) : Option (List ℚ × Outcome) :=
  (runProg code mem).map fun r => (r.2.1, r.2.2)

/-- All-zero stack memory, one concrete possibility for the uninitialized
buffer. -/
def gZero : Nat → ℚ := fun _ => 0

/-- The machine state after a successful two-operand arithmetic
instruction: the opcode fetch advanced `pc`, and the two pops followed by
the push of the result `v` leave `sp` one lower, overwriting the slot
that held the deeper operand. -/
def binResult (vm : VM) (v : ℚ) : VM :=
  { vm with pc := vm.pc + 1, sp := vm.sp - 1,
            stack := Function.update vm.stack (vm.sp - 1).toNat v }

lemma step_div_zero (vm : VM) (hb : vm.code[vm.pc]? = some DIV)
    (h1 : 1 ≤ vm.sp) (h2 : vm.sp < 256) (hz : vm.stack vm.sp.toNat = 0) :
    step vm = StepRes.done { vm with pc := vm.pc + 1, sp := vm.sp - 2 } Outcome.divByZero := by
  have ha : (0 : Int) ≤ vm.sp := by linarith
  have hb1 : (0 : Int) ≤ vm.sp - 1 := by linarith
  have hb2 : vm.sp - 1 < (256 : Int) := by linarith
  simp only [step, hb, popV]
  norm_num [DIV, HALT, NOP, DCONST_M1, DCONST_0, DCONST_1, DCONST_2, DCONST,
    ADD, SUB, MUL, NEG, PRINT, ST1, LD1, ST2, LD2, STACK_SIZE, ha, h2, hb1, hb2, hz]
  omega

lemma step_div_nonzero (vm : VM) (hb : vm.code[vm.pc]? = some DIV)
    (h1 : 1 ≤ vm.sp) (h2 : vm.sp < 256)
    (hz : vm.stack vm.sp.toNat ≠ 0) :
    step vm = StepRes.next
      (binResult vm (vm.stack (vm.sp - 1).toNat / vm.stack vm.sp.toNat)) none := by
  have ha : (0 : Int) ≤ vm.sp := by linarith
  have hb1 : (0 : Int) ≤ vm.sp - 1 := by linarith
  have hb2 : vm.sp - 1 < (256 : Int) := by linarith
  simp only [step, hb, popV, pushV, binResult]
  norm_num [DIV, HALT, NOP, DCONST_M1, DCONST_0, DCONST_1, DCONST_2, DCONST,
    ADD, SUB, MUL, NEG, PRINT, ST1, LD1, ST2, LD2, STACK_SIZE, ha, h2, hb1, hb2, hz]

lemma binOp_eq (vm : VM) (h1 : 1 ≤ vm.sp) (h2 : vm.sp < 256) (f : ℚ → ℚ → ℚ) :
    binOp vm f = StepRes.next
      { vm with sp := vm.sp - 1,
                stack := Function.update vm.stack (vm.sp - 1).toNat
                  (f (vm.stack (vm.sp - 1).toNat) (vm.stack vm.sp.toNat)) } none := by
  have ha : (0 : Int) ≤ vm.sp := by linarith
  have hb1 : (0 : Int) ≤ vm.sp - 1 := by linarith
  have hb2 : vm.sp - 1 < (256 : Int) := by linarith
  simp only [binOp, popV, pushV]
  norm_num [STACK_SIZE, ha, h2, hb1, hb2]

lemma step_add (vm : VM) (hb : vm.code[vm.pc]? = some ADD)
    (h1 : 1 ≤ vm.sp) (h2 : vm.sp < 256) :
    step vm = StepRes.next
      (binResult vm (vm.stack (vm.sp - 1).toNat + vm.stack vm.sp.toNat)) none := by
  simp only [step, hb]
  norm_num [HALT, NOP, DCONST_M1, DCONST_0, DCONST_1, DCONST_2, DCONST, ADD]
  rw [binOp_eq { vm with pc := vm.pc + 1 } h1 h2]
  simp [binResult]

lemma step_sub (vm : VM) (hb : vm.code[vm.pc]? = some SUB)
    (h1 : 1 ≤ vm.sp) (h2 : vm.sp < 256) :
    step vm = StepRes.next
      (binResult vm (vm.stack (vm.sp - 1).toNat - vm.stack vm.sp.toNat)) none := by
  simp only [step, hb]
  norm_num [HALT, NOP, DCONST_M1, DCONST_0, DCONST_1, DCONST_2, DCONST, ADD, MUL, SUB]
  rw [binOp_eq { vm with pc := vm.pc + 1 } h1 h2]
  simp [binResult]

lemma step_mul (vm : VM) (hb : vm.code[vm.pc]? = some MUL)
    (h1 : 1 ≤ vm.sp) (h2 : vm.sp < 256) :
    step vm = StepRes.next
      (binResult vm (vm.stack (vm.sp - 1).toNat * vm.stack vm.sp.toNat)) none := by
  simp only [step, hb]
  norm_num [HALT, NOP, DCONST_M1, DCONST_0, DCONST_1, DCONST_2, DCONST, ADD, MUL]
  rw [binOp_eq { vm with pc := vm.pc + 1 } h1 h2]
  simp [binResult]

lemma run_succ_done {vm vmf : VM} {o : Outcome} (h : step vm = StepRes.done vmf o)
    (fuel : Nat) (out : List ℚ) :
    run (fuel + 1) vm out = some (vmf, out, o) := by
  simp [run, h]

lemma run_succ_next {vm vm' : VM} {p : Option ℚ} (h : step vm = StepRes.next vm' p)
    (fuel : Nat) (out : List ℚ) :
    run (fuel + 1) vm out = run fuel vm' (out ++ p.toList) := by
  simp [run, h]

lemma pushV_next {u : VM} {x : ℚ} {vm' : VM} {p : Option ℚ}
    (h : pushV u x = StepRes.next vm' p) :
    vm' = { u with stack := Function.update u.stack (u.sp + 1).toNat x,
                   sp := u.sp + 1 } ∧ p = none := by
  unfold pushV at h
  split_ifs at h
  injection h with h1 h2
  exact ⟨h1.symm, h2.symm⟩

lemma pushV_done {u : VM} {x : ℚ} {vmf : VM} {o : Outcome}
    (h : pushV u x = StepRes.done vmf o) : vmf = u ∧ o = Outcome.ub := by
  unfold pushV at h
  split_ifs at h
  injection h with h1 h2
  exact ⟨h1.symm, h2.symm⟩

lemma popV_some {u : VM} {x : ℚ} {u' : VM} (h : popV u = some (x, u')) :
    x = u.stack u.sp.toNat ∧ u' = { u with sp := u.sp - 1 } := by
  unfold popV at h
  split_ifs at h
  injection h with h1
  rw [Prod.ext_iff] at h1
  exact ⟨h1.1.symm, h1.2.symm⟩

/-- Two stack memories agree on every slot up to stack pointer `sp`.
Slots above `sp` are dead: every value the interpreter can still read was
written by an earlier push, so two runs differing only in the
uninitialized contents of the `malloc`'d buffer stay in lock-step. -/
def stackAgree (sp : Int) (s1 s2 : Nat → ℚ) : Prop :=
  ∀ i : Nat, (i : Int) ≤ sp → s1 i = s2 i

/-- Two machine states that are equal except possibly in dead stack
slots. -/
def VMRel (v w : VM) : Prop :=
  v.r1 = w.r1 ∧ v.r2 = w.r2 ∧ v.code = w.code ∧ v.pc = w.pc ∧ v.sp = w.sp ∧
  stackAgree v.sp v.stack w.stack

/-- Lock-step relation on step results: related continuations print the
same value, and final results carry the same outcome. -/
def resRel : StepRes → StepRes → Prop
  | StepRes.next v p, StepRes.next w q => VMRel v w ∧ p = q
  | StepRes.done _ o, StepRes.done _ o' => o = o'
  | _, _ => False

lemma stackAgree_mono {sp' sp : Int} {s1 s2 : Nat → ℚ}
    (h : stackAgree sp s1 s2) (hle : sp' ≤ sp) : stackAgree sp' s1 s2 :=
  fun i hi => h i (le_trans hi hle)

lemma stackAgree_update {sp : Int} {s1 s2 : Nat → ℚ}
    (h : stackAgree sp s1 s2) (hnn : 0 ≤ sp + 1) (x : ℚ) :
    stackAgree (sp + 1) (Function.update s1 (sp + 1).toNat x)
      (Function.update s2 (sp + 1).toNat x) := by
  intro i hi
  rcases eq_or_ne i (sp + 1).toNat with rfl | hne
  · simp
  · rw [Function.update_noteq hne, Function.update_noteq hne]
    exact h i (by omega)

lemma pushV_rel {u w : VM} (h : VMRel u w) (x : ℚ) : resRel (pushV u x) (pushV w x) := by
  obtain ⟨h1, h2, h3, h4, h5, h6⟩ := h
  unfold pushV
  rw [h5]
  split_ifs with hc
  · exact ⟨⟨h1, h2, h3, h4, rfl, stackAgree_update (h5 ▸ h6) hc.1 x⟩, rfl⟩
  · rfl

lemma popV_rel {u w : VM} (h : VMRel u w) :
    (popV u = none ∧ popV w = none) ∨
    ∃ x u' w', popV u = some (x, u') ∧ popV w = some (x, w') ∧ VMRel u' w' := by
  obtain ⟨h1, h2, h3, h4, h5, h6⟩ := h
  unfold popV
  rw [h5]
  split_ifs with hc
  · refine Or.inr ⟨w.stack w.sp.toNat, { u with sp := w.sp - 1 },
      { w with sp := w.sp - 1 }, ?_, rfl, ?_⟩
    · rw [h6 w.sp.toNat (by omega)]
    · exact ⟨h1, h2, h3, h4, rfl, stackAgree_mono (h5 ▸ h6) (by dsimp only; omega)⟩
  · exact Or.inl ⟨rfl, rfl⟩

lemma binOp_rel {u w : VM} (h : VMRel u w) (f : ℚ → ℚ → ℚ) :
    resRel (binOp u f) (binOp w f) := by
  unfold binOp
  rcases popV_rel h with ⟨hn1, hn2⟩ | ⟨b, u1, w1, hs1, hs2, hrel1⟩
  · rw [hn1, hn2]; rfl
  · rw [hs1, hs2]
    dsimp only
    rcases popV_rel hrel1 with ⟨hn1', hn2'⟩ | ⟨a, u2, w2, hs1', hs2', hrel2⟩
    · rw [hn1', hn2']; rfl
    · rw [hs1', hs2']
      dsimp only
      exact pushV_rel hrel2 (f a b)

lemma step_rel {v w : VM} (h : VMRel v w) : resRel (step v) (step w) := by
  obtain ⟨h1, h2, h3, h4, h5, h6⟩ := h
  have h6' : stackAgree w.sp v.stack w.stack := h5 ▸ h6
  unfold step
  rw [h1, h2, h3, h4, h5]
  cases hf : w.code[w.pc]? with
  | none => rfl
  | some byte =>
    dsimp only
    have hrelA : VMRel
        { r1 := w.r1, r2 := w.r2, code := w.code, stack := v.stack,
          pc := w.pc + 1, sp := w.sp }
        { w with pc := w.pc + 1 } := ⟨rfl, rfl, rfl, rfl, rfl, h6'⟩
    by_cases hH : byte % 256 = HALT
    · simp only [if_pos hH]; rfl
    simp only [if_neg hH]
    by_cases hN : byte % 256 = NOP
    · simp only [if_pos hN]; exact ⟨hrelA, rfl⟩
    simp only [if_neg hN]
    by_cases hA1 : byte % 256 = DCONST_M1
    · simp only [if_pos hA1]; exact pushV_rel hrelA _
    simp only [if_neg hA1]
    by_cases hA2 : byte % 256 = DCONST_0
    · simp only [if_pos hA2]; exact pushV_rel hrelA _
    simp only [if_neg hA2]
    by_cases hA3 : byte % 256 = DCONST_1
    · simp only [if_pos hA3]; exact pushV_rel hrelA _
    simp only [if_neg hA3]
    by_cases hA4 : byte % 256 = DCONST_2
    · simp only [if_pos hA4]; exact pushV_rel hrelA _
    simp only [if_neg hA4]
    by_cases hDC : byte % 256 = DCONST
    · simp only [if_pos hDC]
      by_cases hlen : w.pc + 1 + 8 ≤ w.code.length
      · simp only [if_pos hlen]
        have hrelB : VMRel
            { r1 := w.r1, r2 := w.r2, code := w.code, stack := v.stack,
              pc := w.pc + 1 + 8, sp := w.sp }
            { w with pc := w.pc + 1 + 8 } := ⟨rfl, rfl, rfl, rfl, rfl, h6'⟩
        exact pushV_rel hrelB _
      · simp only [if_neg hlen]; rfl
    simp only [if_neg hDC]
    by_cases hAd : byte % 256 = ADD
    · simp only [if_pos hAd]; exact binOp_rel hrelA _
    simp only [if_neg hAd]
    by_cases hMu : byte % 256 = MUL
    · simp only [if_pos hMu]; exact binOp_rel hrelA _
    simp only [if_neg hMu]
    by_cases hSu : byte % 256 = SUB
    · simp only [if_pos hSu]; exact binOp_rel hrelA _
    simp only [if_neg hSu]
    by_cases hDi : byte % 256 = DIV
    · simp only [if_pos hDi]
      rcases popV_rel hrelA with ⟨hn1, hn2⟩ | ⟨b, u1, w1, hs1, hs2, hrel1⟩
      · rw [hn1, hn2]; rfl
      · rw [hs1, hs2]
        dsimp only
        rcases popV_rel hrel1 with ⟨hn1', hn2'⟩ | ⟨a, u2, w2, hs1', hs2', hrel2⟩
        · rw [hn1', hn2']; rfl
        · rw [hs1', hs2']
          dsimp only
          by_cases hb0 : b = 0
          · simp only [if_pos hb0]; rfl
          · simp only [if_neg hb0]; exact pushV_rel hrel2 _
    simp only [if_neg hDi]
    by_cases hNe : byte % 256 = NEG
    · simp only [if_pos hNe]
      rcases popV_rel hrelA with ⟨hn1, hn2⟩ | ⟨b, u1, w1, hs1, hs2, hrel1⟩
      · rw [hn1, hn2]; rfl
      · rw [hs1, hs2]
        dsimp only
        exact pushV_rel hrel1 _
    simp only [if_neg hNe]
    by_cases hL1 : byte % 256 = LD1
    · simp only [if_pos hL1]; exact pushV_rel hrelA _
    simp only [if_neg hL1]
    by_cases hS1 : byte % 256 = ST1
    · simp only [if_pos hS1]
      rcases popV_rel hrelA with ⟨hn1, hn2⟩ | ⟨b, u1, w1, hs1, hs2, hrel1⟩
      · rw [hn1, hn2]; rfl
      · rw [hs1, hs2]
        dsimp only
        exact ⟨⟨rfl, hrel1.2.1, hrel1.2.2.1, hrel1.2.2.2.1, hrel1.2.2.2.2.1,
          hrel1.2.2.2.2.2⟩, rfl⟩
    simp only [if_neg hS1]
    by_cases hL2 : byte % 256 = LD2
    · simp only [if_pos hL2]; exact pushV_rel hrelA _
    simp only [if_neg hL2]
    by_cases hS2 : byte % 256 = ST2
    · simp only [if_pos hS2]
      rcases popV_rel hrelA with ⟨hn1, hn2⟩ | ⟨b, u1, w1, hs1, hs2, hrel1⟩
      · rw [hn1, hn2]; rfl
      · rw [hs1, hs2]
        dsimp only
        exact ⟨⟨hrel1.1, rfl, hrel1.2.2.1, hrel1.2.2.2.1, hrel1.2.2.2.2.1,
          hrel1.2.2.2.2.2⟩, rfl⟩
    simp only [if_neg hS2]
    by_cases hPr : byte % 256 = PRINT
    · simp only [if_pos hPr]
      rcases popV_rel hrelA with ⟨hn1, hn2⟩ | ⟨b, u1, w1, hs1, hs2, hrel1⟩
      · rw [hn1, hn2]; rfl
      · rw [hs1, hs2]
        dsimp only
        exact ⟨hrel1, rfl⟩
    simp only [if_neg hPr]
    rfl

lemma run_rel : ∀ (fuel : Nat) {v w : VM}, VMRel v w → ∀ out : List ℚ,
    (run fuel v out).map (fun r => (r.2.1, r.2.2))
      = (run fuel w out).map (fun r => (r.2.1, r.2.2))
  | 0, _, _, _, _ => rfl
  | fuel + 1, v, w, hrel, out => by
    have hs := step_rel hrel
    cases hv : step v with
    | done vmf o =>
      cases hw : step w with
      | done wmf o' =>
        rw [hv, hw] at hs
        have ho : o = o' := hs
        subst ho
        rw [run_succ_done hv, run_succ_done hw]
        rfl
      | next w' q =>
        rw [hv, hw] at hs
        exact False.elim hs
    | next v' p =>
      cases hw : step w with
      | done wmf o =>
        rw [hv, hw] at hs
        exact False.elim hs
      | next w' q =>
        rw [hv, hw] at hs
        have hs' : VMRel v' w' ∧ p = q := hs
        obtain ⟨hrel', rfl⟩ := hs'
        rw [run_succ_next hv, run_succ_next hw]
        exact run_rel fuel hrel' (out ++ p.toList)

lemma newVM_rel (code : List Nat) (m1 m2 : Nat → ℚ) :
    VMRel (newVM code m1) (newVM code m2) :=
  ⟨rfl, rfl, rfl, rfl, rfl, fun i hi => absurd hi (by dsimp only [newVM]; omega)⟩

lemma progOutput_congr (code : List Nat) (m1 m2 : Nat → ℚ) :
    progOutput code m1 = progOutput code m2 := by
  unfold progOutput runProg
  exact run_rel _ (newVM_rel code m1 m2) []

lemma binOp_next {u : VM} {f : ℚ → ℚ → ℚ} {vm' : VM} {p : Option ℚ}
    (h : binOp u f = StepRes.next vm' p) :
    vm'.r1 = u.r1 ∧ vm'.r2 = u.r2 ∧ vm'.code = u.code ∧ vm'.pc = u.pc := by
  unfold binOp at h
  cases hp1 : popV u with
  | none => rw [hp1] at h; exact StepRes.noConfusion h
  | some bv =>
    obtain ⟨b, u1⟩ := bv
    rw [hp1] at h
    dsimp only at h
    cases hp2 : popV u1 with
    | none => rw [hp2] at h; exact StepRes.noConfusion h
    | some av =>
      obtain ⟨a, u2⟩ := av
      rw [hp2] at h
      dsimp only at h
      obtain ⟨-, rfl⟩ := popV_some hp1
      obtain ⟨-, rfl⟩ := popV_some hp2
      obtain ⟨rfl, rfl⟩ := pushV_next h
      exact ⟨rfl, rfl, rfl, rfl⟩

lemma binOp_done {u : VM} {f : ℚ → ℚ → ℚ} {vmf : VM} {o : Outcome}
    (h : binOp u f = StepRes.done vmf o) :
    vmf.r1 = u.r1 ∧ vmf.r2 = u.r2 := by
  unfold binOp at h
  cases hp1 : popV u with
  | none =>
    rw [hp1] at h
    dsimp only at h
    injection h with h1 h2
    subst h1
    exact ⟨rfl, rfl⟩
  | some bv =>
    obtain ⟨b, u1⟩ := bv
    rw [hp1] at h
    dsimp only at h
    cases hp2 : popV u1 with
    | none =>
      rw [hp2] at h
      dsimp only at h
      injection h with h1 h2
      subst h1
      obtain ⟨-, rfl⟩ := popV_some hp1
      exact ⟨rfl, rfl⟩
    | some av =>
      obtain ⟨a, u2⟩ := av
      rw [hp2] at h
      dsimp only at h
      obtain ⟨rfl, rfl⟩ := pushV_done h
      obtain ⟨-, rfl⟩ := popV_some hp1
      obtain ⟨-, rfl⟩ := popV_some hp2
      exact ⟨rfl, rfl⟩

lemma step_next_fields (vm : VM) : ∀ vm' p, step vm = StepRes.next vm' p →
    vm'.code = vm.code ∧
    (vm'.r1 = vm.r1 ∨ vm.code[vm.pc]?.map (fun b => b % 256) = some ST1) ∧
    (vm'.r2 = vm.r2 ∨ vm.code[vm.pc]?.map (fun b => b % 256) = some ST2) ∧
    vm.pc < vm'.pc ∧ vm.pc < vm.code.length := by
  unfold step
  cases hf : vm.code[vm.pc]? with
  | none => intro vm' p h; exact StepRes.noConfusion h
  | some byte =>
    have hlen : vm.pc < vm.code.length := by
      by_contra hc
      rw [List.getElem?_eq_none (le_of_not_lt hc)] at hf
      exact Option.noConfusion hf
    dsimp only
    intro vm' p h
    by_cases hH : byte % 256 = HALT
    · rw [if_pos hH] at h; exact StepRes.noConfusion h
    rw [if_neg hH] at h
    by_cases hN : byte % 256 = NOP
    · rw [if_pos hN] at h
      injection h with h1 h2
      subst h1
      exact ⟨rfl, Or.inl rfl, Or.inl rfl, Nat.lt_succ_self _, hlen⟩
    rw [if_neg hN] at h
    by_cases hA1 : byte % 256 = DCONST_M1
    · rw [if_pos hA1] at h
      obtain ⟨rfl, rfl⟩ := pushV_next h
      exact ⟨rfl, Or.inl rfl, Or.inl rfl, Nat.lt_succ_self _, hlen⟩
    rw [if_neg hA1] at h
    by_cases hA2 : byte % 256 = DCONST_0
    · rw [if_pos hA2] at h
      obtain ⟨rfl, rfl⟩ := pushV_next h
      exact ⟨rfl, Or.inl rfl, Or.inl rfl, Nat.lt_succ_self _, hlen⟩
    rw [if_neg hA2] at h
    by_cases hA3 : byte % 256 = DCONST_1
    · rw [if_pos hA3] at h
      obtain ⟨rfl, rfl⟩ := pushV_next h
      exact ⟨rfl, Or.inl rfl, Or.inl rfl, Nat.lt_succ_self _, hlen⟩
    rw [if_neg hA3] at h
    by_cases hA4 : byte % 256 = DCONST_2
    · rw [if_pos hA4] at h
      obtain ⟨rfl, rfl⟩ := pushV_next h
      exact ⟨rfl, Or.inl rfl, Or.inl rfl, Nat.lt_succ_self _, hlen⟩
    rw [if_neg hA4] at h
    by_cases hDC : byte % 256 = DCONST
    · rw [if_pos hDC] at h
      by_cases hl8 : vm.pc + 1 + 8 ≤ vm.code.length
      · rw [if_pos hl8] at h
        obtain ⟨rfl, rfl⟩ := pushV_next h
        refine ⟨rfl, Or.inl rfl, Or.inl rfl, ?_, hlen⟩
        dsimp only
        omega
      · rw [if_neg hl8] at h; exact StepRes.noConfusion h
    rw [if_neg hDC] at h
    by_cases hAd : byte % 256 = ADD
    · rw [if_pos hAd] at h
      obtain ⟨e1, e2, e3, e4⟩ := binOp_next h
      exact ⟨e3, Or.inl e1, Or.inl e2, by rw [e4]; exact Nat.lt_succ_self _, hlen⟩
    rw [if_neg hAd] at h
    by_cases hMu : byte % 256 = MUL
    · rw [if_pos hMu] at h
      obtain ⟨e1, e2, e3, e4⟩ := binOp_next h
      exact ⟨e3, Or.inl e1, Or.inl e2, by rw [e4]; exact Nat.lt_succ_self _, hlen⟩
    rw [if_neg hMu] at h
    by_cases hSu : byte % 256 = SUB
    · rw [if_pos hSu] at h
      obtain ⟨e1, e2, e3, e4⟩ := binOp_next h
      exact ⟨e3, Or.inl e1, Or.inl e2, by rw [e4]; exact Nat.lt_succ_self _, hlen⟩
    rw [if_neg hSu] at h
    by_cases hDi : byte % 256 = DIV
    · rw [if_pos hDi] at h
      cases hp1 : popV { vm with pc := vm.pc + 1 } with
      | none => rw [hp1] at h; exact StepRes.noConfusion h
      | some bv =>
        obtain ⟨b, u1⟩ := bv
        rw [hp1] at h
        dsimp only at h
        cases hp2 : popV u1 with
        | none => rw [hp2] at h; exact StepRes.noConfusion h
        | some av =>
          obtain ⟨a, u2⟩ := av
          rw [hp2] at h
          dsimp only at h
          by_cases hb0 : b = 0
          · rw [if_pos hb0] at h; exact StepRes.noConfusion h
          · rw [if_neg hb0] at h
            obtain ⟨-, rfl⟩ := popV_some hp1
            obtain ⟨-, rfl⟩ := popV_some hp2
            obtain ⟨rfl, rfl⟩ := pushV_next h
            exact ⟨rfl, Or.inl rfl, Or.inl rfl, Nat.lt_succ_self _, hlen⟩
    rw [if_neg hDi] at h
    by_cases hNe : byte % 256 = NEG
    · rw [if_pos hNe] at h
      cases hp1 : popV { vm with pc := vm.pc + 1 } with
      | none => rw [hp1] at h; exact StepRes.noConfusion h
      | some bv =>
        obtain ⟨b, u1⟩ := bv
        rw [hp1] at h
        dsimp only at h
        obtain ⟨-, rfl⟩ := popV_some hp1
        obtain ⟨rfl, rfl⟩ := pushV_next h
        exact ⟨rfl, Or.inl rfl, Or.inl rfl, Nat.lt_succ_self _, hlen⟩
    rw [if_neg hNe] at h
    by_cases hL1 : byte % 256 = LD1
    · rw [if_pos hL1] at h
      obtain ⟨rfl, rfl⟩ := pushV_next h
      exact ⟨rfl, Or.inl rfl, Or.inl rfl, Nat.lt_succ_self _, hlen⟩
    rw [if_neg hL1] at h
    by_cases hS1 : byte % 256 = ST1
    · rw [if_pos hS1] at h
      cases hp1 : popV { vm with pc := vm.pc + 1 } with
      | none => rw [hp1] at h; exact StepRes.noConfusion h
      | some bv =>
        obtain ⟨b, u1⟩ := bv
        rw [hp1] at h
        dsimp only at h
        injection h with h1 h2
        subst h1
        obtain ⟨-, rfl⟩ := popV_some hp1
        exact ⟨rfl, Or.inr (by simp [hS1]), Or.inl rfl, Nat.lt_succ_self _, hlen⟩
    rw [if_neg hS1] at h
    by_cases hL2 : byte % 256 = LD2
    · rw [if_pos hL2] at h
      obtain ⟨rfl, rfl⟩ := pushV_next h
      exact ⟨rfl, Or.inl rfl, Or.inl rfl, Nat.lt_succ_self _, hlen⟩
    rw [if_neg hL2] at h
    by_cases hS2 : byte % 256 = ST2
    · rw [if_pos hS2] at h
      cases hp1 : popV { vm with pc := vm.pc + 1 } with
      | none => rw [hp1] at h; exact StepRes.noConfusion h
      | some bv =>
        obtain ⟨b, u1⟩ := bv
        rw [hp1] at h
        dsimp only at h
        injection h with h1 h2
        subst h1
        obtain ⟨-, rfl⟩ := popV_some hp1
        exact ⟨rfl, Or.inl rfl, Or.inr (by simp [hS2]), Nat.lt_succ_self _, hlen⟩
    rw [if_neg hS2] at h
    by_cases hPr : byte % 256 = PRINT
    · rw [if_pos hPr] at h
      cases hp1 : popV { vm with pc := vm.pc + 1 } with
      | none => rw [hp1] at h; exact StepRes.noConfusion h
      | some bv =>
        obtain ⟨b, u1⟩ := bv
        rw [hp1] at h
        dsimp only at h
        injection h with h1 h2
        subst h1
        obtain ⟨-, rfl⟩ := popV_some hp1
        exact ⟨rfl, Or.inl rfl, Or.inl rfl, Nat.lt_succ_self _, hlen⟩
    rw [if_neg hPr] at h
    exact StepRes.noConfusion h

lemma step_done_fields (vm : VM) : ∀ vmf o, step vm = StepRes.done vmf o →
    vmf.r1 = vm.r1 ∧ vmf.r2 = vm.r2 := by
  unfold step
  cases hf : vm.code[vm.pc]? with
  | none =>
    intro vmf o h
    injection h with h1 h2
    subst h1
    exact ⟨rfl, rfl⟩
  | some byte =>
    dsimp only
    intro vmf o h
    by_cases hH : byte % 256 = HALT
    · rw [if_pos hH] at h
      injection h with h1 h2
      subst h1
      exact ⟨rfl, rfl⟩
    rw [if_neg hH] at h
    by_cases hN : byte % 256 = NOP
    · rw [if_pos hN] at h; exact StepRes.noConfusion h
    rw [if_neg hN] at h
    by_cases hA1 : byte % 256 = DCONST_M1
    · rw [if_pos hA1] at h
      obtain ⟨rfl, rfl⟩ := pushV_done h
      exact ⟨rfl, rfl⟩
    rw [if_neg hA1] at h
    by_cases hA2 : byte % 256 = DCONST_0
    · rw [if_pos hA2] at h
      obtain ⟨rfl, rfl⟩ := pushV_done h
      exact ⟨rfl, rfl⟩
    rw [if_neg hA2] at h
    by_cases hA3 : byte % 256 = DCONST_1
    · rw [if_pos hA3] at h
      obtain ⟨rfl, rfl⟩ := pushV_done h
      exact ⟨rfl, rfl⟩
    rw [if_neg hA3] at h
    by_cases hA4 : byte % 256 = DCONST_2
    · rw [if_pos hA4] at h
      obtain ⟨rfl, rfl⟩ := pushV_done h
      exact ⟨rfl, rfl⟩
    rw [if_neg hA4] at h
    by_cases hDC : byte % 256 = DCONST
    · rw [if_pos hDC] at h
      by_cases hl8 : vm.pc + 1 + 8 ≤ vm.code.length
      · rw [if_pos hl8] at h
        obtain ⟨rfl, rfl⟩ := pushV_done h
        exact ⟨rfl, rfl⟩
      · rw [if_neg hl8] at h
        injection h with h1 h2
        subst h1
        exact ⟨rfl, rfl⟩
    rw [if_neg hDC] at h
    by_cases hAd : byte % 256 = ADD
    · rw [if_pos hAd] at h
      have hbd := binOp_done h
      exact hbd
    rw [if_neg hAd] at h
    by_cases hMu : byte % 256 = MUL
    · rw [if_pos hMu] at h
      have hbd := binOp_done h
      exact hbd
    rw [if_neg hMu] at h
    by_cases hSu : byte % 256 = SUB
    · rw [if_pos hSu] at h
      have hbd := binOp_done h
      exact hbd
    rw [if_neg hSu] at h
    by_cases hDi : byte % 256 = DIV
    · rw [if_pos hDi] at h
      cases hp1 : popV { vm with pc := vm.pc + 1 } with
      | none =>
        rw [hp1] at h
        dsimp only at h
        injection h with h1 h2
        subst h1
        exact ⟨rfl, rfl⟩
      | some bv =>
        obtain ⟨b, u1⟩ := bv
        rw [hp1] at h
        dsimp only at h
        cases hp2 : popV u1 with
        | none =>
          rw [hp2] at h
          dsimp only at h
          injection h with h1 h2
          subst h1
          obtain ⟨-, rfl⟩ := popV_some hp1
          exact ⟨rfl, rfl⟩
        | some av =>
          obtain ⟨a, u2⟩ := av
          rw [hp2] at h
          dsimp only at h
          by_cases hb0 : b = 0
          · rw [if_pos hb0] at h
            injection h with h1 h2
            subst h1
            obtain ⟨-, rfl⟩ := popV_some hp1
            obtain ⟨-, rfl⟩ := popV_some hp2
            exact ⟨rfl, rfl⟩
          · rw [if_neg hb0] at h
            obtain ⟨rfl, rfl⟩ := pushV_done h
            obtain ⟨-, rfl⟩ := popV_some hp1
            obtain ⟨-, rfl⟩ := popV_some hp2
            exact ⟨rfl, rfl⟩
    rw [if_neg hDi] at h
    by_cases hNe : byte % 256 = NEG
    · rw [if_pos hNe] at h
      cases hp1 : popV { vm with pc := vm.pc + 1 } with
      | none =>
        rw [hp1] at h
        dsimp only at h
        injection h with h1 h2
        subst h1
        exact ⟨rfl, rfl⟩
      | some bv =>
        obtain ⟨b, u1⟩ := bv
        rw [hp1] at h
        dsimp only at h
        obtain ⟨rfl, rfl⟩ := pushV_done h
        obtain ⟨-, rfl⟩ := popV_some hp1
        exact ⟨rfl, rfl⟩
    rw [if_neg hNe] at h
    by_cases hL1 : byte % 256 = LD1
    · rw [if_pos hL1] at h
      obtain ⟨rfl, rfl⟩ := pushV_done h
      exact ⟨rfl, rfl⟩
    rw [if_neg hL1] at h
    by_cases hS1 : byte % 256 = ST1
    · rw [if_pos hS1] at h
      cases hp1 : popV { vm with pc := vm.pc + 1 } with
      | none =>
        rw [hp1] at h
        dsimp only at h
        injection h with h1 h2
        subst h1
        exact ⟨rfl, rfl⟩
      | some bv =>
        obtain ⟨b, u1⟩ := bv
        rw [hp1] at h
        dsimp only at h
        exact StepRes.noConfusion h
    rw [if_neg hS1] at h
    by_cases hL2 : byte % 256 = LD2
    · rw [if_pos hL2] at h
      obtain ⟨rfl, rfl⟩ := pushV_done h
      exact ⟨rfl, rfl⟩
    rw [if_neg hL2] at h
    by_cases hS2 : byte % 256 = ST2
    · rw [if_pos hS2] at h
      cases hp1 : popV { vm with pc := vm.pc + 1 } with
      | none =>
        rw [hp1] at h
        dsimp only at h
        injection h with h1 h2
        subst h1
        exact ⟨rfl, rfl⟩
      | some bv =>
        obtain ⟨b, u1⟩ := bv
        rw [hp1] at h
        dsimp only at h
        exact StepRes.noConfusion h
    rw [if_neg hS2] at h
    by_cases hPr : byte % 256 = PRINT
    · rw [if_pos hPr] at h
      cases hp1 : popV { vm with pc := vm.pc + 1 } with
      | none =>
        rw [hp1] at h
        dsimp only at h
        injection h with h1 h2
        subst h1
        exact ⟨rfl, rfl⟩
      | some bv =>
        obtain ⟨b, u1⟩ := bv
        rw [hp1] at h
        dsimp only at h
        exact StepRes.noConfusion h
    rw [if_neg hPr] at h
    injection h with h1 h2
    subst h1
    exact ⟨rfl, rfl⟩

lemma run_total : ∀ (fuel : Nat) (vm : VM) (out : List ℚ),
    vm.code.length + 1 ≤ vm.pc + fuel → 1 ≤ fuel → (run fuel vm out).isSome
  | 0, _, _, _, hf => absurd hf (by omega)
  | fuel + 1, vm, out, hlen, _ => by
    cases hv : step vm with
    | done vmf o => rw [run_succ_done hv]; rfl
    | next vm' p =>
      rw [run_succ_next hv]
      obtain ⟨hc, -, -, hpc, hcl⟩ := step_next_fields vm vm' p hv
      exact run_total fuel vm' (out ++ p.toList) (by rw [hc]; omega) (by omega)

lemma run_overflow : ∀ (fuel : Nat) (vm : VM) (out : List ℚ),
    vm.code = List.replicate 257 DCONST_1 → vm.pc ≤ 256 →
    vm.sp = (vm.pc : Int) - 1 → 257 - vm.pc ≤ fuel →
    ∃ vmf, run fuel vm out = some (vmf, out, Outcome.ub)
  | 0, vm, _, _, hpc, _, hfuel => absurd hfuel (by omega)
  | fuel + 1, vm, out, hcode, hpc, hsp, hfuel => by
    have hfetch : vm.code[vm.pc]? = some DCONST_1 := by
      rw [hcode, List.getElem?_replicate, if_pos (by omega)]
    have hstep : step vm = pushV { vm with pc := vm.pc + 1 } 1 := by
      simp only [step, hfetch]
      norm_num [HALT, NOP, DCONST_M1, DCONST_0, DCONST_1]
    by_cases hend : vm.pc = 256
    · have hdone : step vm = StepRes.done { vm with pc := vm.pc + 1 } Outcome.ub := by
        rw [hstep]
        unfold pushV
        rw [if_neg (by dsimp only; rw [hsp, hend]; norm_num [STACK_SIZE])]
      exact ⟨_, run_succ_done hdone fuel out⟩
    · have hnext : step vm = StepRes.next
          { vm with pc := vm.pc + 1,
                    stack := Function.update vm.stack (vm.sp + 1).toNat 1,
                    sp := vm.sp + 1 } none := by
        rw [hstep]
        unfold pushV
        rw [if_pos (by dsimp only; rw [hsp]; simp only [STACK_SIZE]; push_cast; omega)]
      rw [run_succ_next hnext]
      simp only [Option.toList_none, List.append_nil]
      exact run_overflow fuel _ out hcode (by dsimp only; omega)
        (by dsimp only; rw [hsp]; push_cast; ring) (by dsimp only; omega)

set_option exponentiation.threshold 1200

/-- C1: the claim says every push checks for `StackOverflow` and every pop
checks for `StackUnderflow`.  The code has no such checks: `POP` on an
empty stack reads `stack[-1]` and `PUSH` on a full stack writes
`stack[256]`, both out of bounds (undefined behaviour, `Outcome.ub`), and
no `StackUnderflow`/`StackOverflow` result exists anywhere in `run`.
Evaluated at the two failing programs: a lone `ADD` on a fresh machine,
and 257 consecutive `DCONST_1` pushes. -/
theorem no_stack_guard_ub :
    progOutput [ADD] gZero = some ([], Outcome.ub) ∧
    progOutput (List.replicate 257 DCONST_1) gZero = some ([], Outcome.ub) := by
  constructor
  · norm_num [progOutput, runProg, run, step, pushV, popV, binOp, newVM, gZero,
      STACK_SIZE, HALT, NOP, DCONST_M1, DCONST_0, DCONST_1, DCONST_2, DCONST,
      ADD, SUB, MUL, DIV, NEG, PRINT, ST1, LD1, ST2, LD2, Function.update]
  · obtain ⟨vmf, hr⟩ := run_overflow 258 (newVM (List.replicate 257 DCONST_1) gZero) []
      rfl (by norm_num [newVM]) (by norm_num [newVM]) (by norm_num [newVM])
    unfold progOutput runProg
    rw [List.length_replicate]
    rw [hr]
    rfl

/-- C2: the claim says a fetch past the end of `code` fails with
`UnexpectedEndOfCode`.  The code has no bound check: `NCODE` on an
exhausted buffer and the `DCONST` `memcpy` with fewer than 8 operand
bytes both read out of bounds (undefined behaviour, `Outcome.ub`); no
`UnexpectedEndOfCode` result exists.  Evaluated on an empty program, on
`NOP` without a following byte, and on `DCONST` with a 1-byte operand. -/
theorem no_code_bound_guard_ub :
    progOutput [] gZero = some ([], Outcome.ub) ∧
    progOutput [NOP] gZero = some ([], Outcome.ub) ∧
    progOutput [DCONST, 0x3F] gZero = some ([], Outcome.ub) := by
  refine ⟨rfl, ?_, ?_⟩ <;>
    norm_num [progOutput, runProg, run, step, pushV, popV, binOp, newVM, gZero,
      STACK_SIZE, HALT, NOP, DCONST_M1, DCONST_0, DCONST_1, DCONST_2, DCONST,
      ADD, SUB, MUL, DIV, NEG, PRINT, ST1, LD1, ST2, LD2, Function.update]

/-- C3 counterexample: under the little-endian rule the claim itself
states, the operand bytes `3F F0 00 00 00 00 00 00` assemble to the bit
pattern `0x000000000000F03F`, the subnormal `61503 / 2 ^ 1074` — not
`1.0`.  Executing `DCONST` on those bytes followed by `PRINT, HALT`
prints that subnormal. -/
theorem dconst_3FF0_bytes_not_one :
    progOutput [DCONST, 0x3F, 0xF0, 0x00, 0x00, 0x00, 0x00, 0x00, 0x00, PRINT, HALT] gZero
      = some ([(61503 : ℚ) / 2 ^ 1074], Outcome.success) ∧
    (61503 : ℚ) / 2 ^ 1074 ≠ 1 := by
  constructor
  · norm_num [progOutput, runProg, run, step, pushV, popV, binOp, newVM, gZero,
      STACK_SIZE, HALT, NOP, DCONST_M1, DCONST_0, DCONST_1, DCONST_2, DCONST,
      ADD, SUB, MUL, DIV, NEG, PRINT, ST1, LD1, ST2, LD2, Function.update,
      dconstBytes, leBytesToBits, bitsToDouble, List.range_succ]
  · norm_num

/-- C3 as amended: the `DCONST` operand is read as a little-endian
IEEE-754 binary64 — the byte at the lowest program-counter offset is the
least-significant byte (`leBytesToBits` is the base-256 little-endian
sum) — and it is the bytes `00 00 00 00 00 00 F0 3F`
(pattern `0x3FF0000000000000`) that decode to `1.0`. -/
theorem dconst_little_endian_decode :
    (∀ b0 b1 b2 b3 b4 b5 b6 b7 : Nat,
      leBytesToBits [b0, b1, b2, b3, b4, b5, b6, b7]
        = b0 + b1 * 2 ^ 8 + b2 * 2 ^ 16 + b3 * 2 ^ 24 + b4 * 2 ^ 32
          + b5 * 2 ^ 40 + b6 * 2 ^ 48 + b7 * 2 ^ 56) ∧
    bitsToDouble 0x3FF0000000000000 = some 1 ∧
    progOutput [DCONST, 0x00, 0x00, 0x00, 0x00, 0x00, 0x00, 0xF0, 0x3F, PRINT, HALT] gZero
      = some ([1], Outcome.success) := by
  refine ⟨fun b0 b1 b2 b3 b4 b5 b6 b7 => ?_, ?_, ?_⟩
  · simp only [leBytesToBits, List.foldr]
    ring
  · norm_num [bitsToDouble]
  · norm_num [progOutput, runProg, run, step, pushV, popV, binOp, newVM, gZero,
      STACK_SIZE, HALT, NOP, DCONST_M1, DCONST_0, DCONST_1, DCONST_2, DCONST,
      ADD, SUB, MUL, DIV, NEG, PRINT, ST1, LD1, ST2, LD2, Function.update,
      dconstBytes, leBytesToBits, bitsToDouble, List.range_succ]

/-- C4: with at least two values on the stack (`1 ≤ sp`, and `sp` within
the 256-slot buffer), `DIV` pops `b` then `a`; if `b = 0` (the C test
`!b`), `run` returns `DividingByZeroError` at once — the output is
unchanged (nothing pushed, nothing printed) and no further opcode runs,
the machine left with `sp` two lower; if `b ≠ 0` it pushes `a / b`. -/
theorem div_by_zero_semantics (vm : VM) (hb : vm.code[vm.pc]? = some DIV)
    (h1 : 1 ≤ vm.sp) (h2 : vm.sp < 256) :
    (vm.stack vm.sp.toNat = 0 →
      ∀ fuel out, run (fuel + 1) vm out
        = some ({ vm with pc := vm.pc + 1, sp := vm.sp - 2 }, out, Outcome.divByZero)) ∧
    (vm.stack vm.sp.toNat ≠ 0 →
      step vm = StepRes.next
        (binResult vm (vm.stack (vm.sp - 1).toNat / vm.stack vm.sp.toNat)) none) :=
  ⟨fun hz fuel out => run_succ_done (step_div_zero vm hb h1 h2 hz) fuel out,
   fun hz => step_div_nonzero vm hb h1 h2 hz⟩

/-- A machine about to execute `DIV` with `b = 0.0` on top and two values
on the stack. -/
def vmDiv0 : VM :=
  { r1 := 0, r2 := 0, code := [DIV], stack := fun _ => 0, pc := 0, sp := 1 }

/-- Witness for `div_by_zero_semantics` at a concrete machine. -/
theorem div_by_zero_semantics_w :
    run 1 vmDiv0 [] = some ({ vmDiv0 with pc := vmDiv0.pc + 1, sp := vmDiv0.sp - 2 },
      [], Outcome.divByZero) :=
  (div_by_zero_semantics vmDiv0 rfl (by decide) (by decide)).1 rfl 0 []

/-- C5: every binary opcode pops `b` (the later-pushed value, at `sp`)
first and `a` (the earlier-pushed value, at `sp - 1`) second, and pushes
the result of `a` on the left and `b` on the right: the second-popped
value is the left operand. -/
theorem binop_operand_order (vm : VM) (h1 : 1 ≤ vm.sp) (h2 : vm.sp < 256) :
    (vm.code[vm.pc]? = some ADD → step vm = StepRes.next
      (binResult vm (vm.stack (vm.sp - 1).toNat + vm.stack vm.sp.toNat)) none) ∧
    (vm.code[vm.pc]? = some SUB → step vm = StepRes.next
      (binResult vm (vm.stack (vm.sp - 1).toNat - vm.stack vm.sp.toNat)) none) ∧
    (vm.code[vm.pc]? = some MUL → step vm = StepRes.next
      (binResult vm (vm.stack (vm.sp - 1).toNat * vm.stack vm.sp.toNat)) none) ∧
    (vm.code[vm.pc]? = some DIV → vm.stack vm.sp.toNat ≠ 0 → step vm = StepRes.next
      (binResult vm (vm.stack (vm.sp - 1).toNat / vm.stack vm.sp.toNat)) none) :=
  ⟨fun hb => step_add vm hb h1 h2, fun hb => step_sub vm hb h1 h2,
   fun hb => step_mul vm hb h1 h2, fun hb hz => step_div_nonzero vm hb h1 h2 hz⟩

/-- A machine about to execute `SUB` with `a = 5` pushed first and
`b = 2` pushed second. -/
def vmBin : VM :=
  { r1 := 0, r2 := 0, code := [SUB], stack := fun i => if i = 0 then 5 else 2,
    pc := 0, sp := 1 }

/-- Witness for `binop_operand_order`: on the concrete machine, `SUB`
computes `a - b = 5 - 2 = 3`, not `b - a`. -/
theorem binop_operand_order_w :
    step vmBin = StepRes.next
      (binResult vmBin (vmBin.stack (vmBin.sp - 1).toNat - vmBin.stack vmBin.sp.toNat))
      none ∧
    vmBin.stack (vmBin.sp - 1).toNat - vmBin.stack vmBin.sp.toNat = 3 :=
  ⟨(binop_operand_order vmBin (by decide) (by decide)).2.1 rfl, by norm_num [vmBin]⟩

/-- C6: the sample program `DCONST_2, DCONST_1, SUB, PRINT, HALT` prints
exactly one value, `1.0`, and `run` returns `EXIT_SUCCESS` — whatever the
uninitialized contents of the stack buffer. -/
theorem sample_program_prints_one (mem : Nat → ℚ) :
    progOutput [DCONST_2, DCONST_1, SUB, PRINT, HALT] mem
      = some ([1], Outcome.success) :=
  (progOutput_congr _ mem gZero).trans (by
    norm_num [progOutput, runProg, run, step, pushV, popV, binOp, newVM, gZero,
      STACK_SIZE, HALT, NOP, DCONST_M1, DCONST_0, DCONST_1, DCONST_2, DCONST,
      ADD, SUB, MUL, DIV, NEG, PRINT, ST1, LD1, ST2, LD2, Function.update])

/-- C7: `newVM` zero-initializes both registers, and registers change
only through their store opcode: any loop iteration that continues leaves
`r1` unchanged unless the fetched opcode byte is `ST1` and leaves `r2`
unchanged unless it is `ST2` (in particular `LD1`/`LD2` retain the
register value), and any iteration that returns (HALT or any error)
leaves both registers unchanged. -/
theorem registers_init_and_frame :
    (∀ code mem, (newVM code mem).r1 = 0 ∧ (newVM code mem).r2 = 0) ∧
    (∀ vm vm' p, step vm = StepRes.next vm' p →
      (vm.code[vm.pc]?.map (fun b => b % 256) ≠ some ST1 → vm'.r1 = vm.r1) ∧
      (vm.code[vm.pc]?.map (fun b => b % 256) ≠ some ST2 → vm'.r2 = vm.r2)) ∧
    (∀ vm vmf o, step vm = StepRes.done vmf o → vmf.r1 = vm.r1 ∧ vmf.r2 = vm.r2) := by
  refine ⟨fun code mem => ⟨rfl, rfl⟩, fun vm vm' p h => ?_,
    fun vm vmf o h => step_done_fields vm vmf o h⟩
  obtain ⟨-, hr1, hr2, -, -⟩ := step_next_fields vm vm' p h
  exact ⟨fun hne => hr1.resolve_right hne, fun hne => hr2.resolve_right hne⟩

/-- A fresh machine about to execute `LD1`. -/
def vmLD1 : VM := newVM [LD1] gZero

/-- The machine after executing `LD1` on `vmLD1`. -/
def vmLD1Next : VM :=
  { vmLD1 with pc := 1, stack := Function.update vmLD1.stack 0 vmLD1.r1, sp := 0 }

/-- Witness for `registers_init_and_frame`: fresh registers are zero, and
executing `LD1` leaves both registers unchanged. -/
theorem registers_init_and_frame_w :
    vmLD1.r1 = 0 ∧ vmLD1Next.r1 = vmLD1.r1 ∧ vmLD1Next.r2 = vmLD1.r2 :=
  ⟨(registers_init_and_frame.1 [LD1] gZero).1,
   (registers_init_and_frame.2.1 vmLD1 vmLD1Next none rfl).1 (by decide),
   (registers_init_and_frame.2.1 vmLD1 vmLD1Next none rfl).2 (by decide)⟩

/-- C8: the instruction set has no jumps — every loop iteration that
continues strictly increases the program counter — so for every program
and every initial stack memory the loop reaches HALT or an error within
`len(code)` decode steps (fuel `len(code) + 1` never runs out). -/
theorem linear_control_terminates :
    (∀ code mem, (runProg code mem).isSome) ∧
    (∀ vm vm' p, step vm = StepRes.next vm' p → vm.pc < vm'.pc) := by
  constructor
  · intro code mem
    exact run_total (code.length + 1) (newVM code mem) []
      (by dsimp only [newVM]; omega) (by omega)
  · intro vm vm' p h
    exact (step_next_fields vm vm' p h).2.2.2.1

/-- A fresh machine about to execute `NOP`. -/
def vmNop : VM := newVM [NOP] gZero

/-- Witness for `linear_control_terminates`: executing `NOP` advances the
program counter, and the `NOP`-only program terminates. -/
theorem linear_control_terminates_w :
    (runProg [NOP] gZero).isSome ∧ vmNop.pc < ({ vmNop with pc := 1 } : VM).pc :=
  ⟨linear_control_terminates.1 [NOP] gZero,
   linear_control_terminates.2 vmNop { vmNop with pc := 1 } none rfl⟩

/-- C9: execution is deterministic and nothing persists between runs:
two fresh machines built by `newVM` from the same byte sequence produce
exactly the same printed values and the same final result, even though
their `malloc`'d stack buffers start with arbitrary, possibly different,
uninitialized contents. -/
theorem fresh_run_deterministic (code : List Nat) (m1 m2 : Nat → ℚ) :
    progOutput code m1 = progOutput code m2 :=
  progOutput_congr code m1 m2

/-- C10: when `DIV` hits a zero divisor, both operands have already been
popped before the check `!b` runs: `run` returns with the very machine
whose `sp` is two lower than before the instruction and whose stack array
is untouched — the error is not atomic with respect to the stack. -/
theorem div_zero_error_not_atomic (vm : VM) (hb : vm.code[vm.pc]? = some DIV)
    (h1 : 1 ≤ vm.sp) (h2 : vm.sp < 256) (hz : vm.stack vm.sp.toNat = 0) :
    step vm = StepRes.done { vm with pc := vm.pc + 1, sp := vm.sp - 2 }
      Outcome.divByZero ∧
    ({ vm with pc := vm.pc + 1, sp := vm.sp - 2 } : VM).sp = vm.sp - 2 ∧
    ({ vm with pc := vm.pc + 1, sp := vm.sp - 2 } : VM).stack = vm.stack :=
  ⟨step_div_zero vm hb h1 h2 hz, rfl, rfl⟩

/-- A machine about to execute `DIV` with a zero divisor and four values
on the stack. -/
def vmDivTall : VM :=
  { r1 := 0, r2 := 0, code := [DIV], stack := fun _ => 0, pc := 0, sp := 3 }

/-- Witness for `div_zero_error_not_atomic` at a concrete machine:
`sp` drops from 3 to 1 at the moment the error is reported. -/
theorem div_zero_error_not_atomic_w :
    step vmDivTall = StepRes.done
      { vmDivTall with pc := vmDivTall.pc + 1, sp := vmDivTall.sp - 2 }
      Outcome.divByZero :=
  (div_zero_error_not_atomic vmDivTall rfl (by decide) (by decide) rfl).1
